import Mathlib

/-! Verification development for the HashLinkListRep memtable index
(util/hash_linklist_rep.cc) and the standard slice transforms
(util/slice.cc).  Memtable-encoded entries, user keys and slices are all
byte strings, modelled as lists of natural-number bytes. -/

/-- Byte strings: entries, user keys and slices. -/
abbrev Key := List Nat

/-- Contract of the user-supplied three-way comparator
(MemTableRep::KeyComparator): a three-way total order over
memtable-encoded entries, as required by the construction parameters. -/
structure CmpSpec (cmp : Key → Key → Int) : Prop where
  refl : ∀ a, cmp a a = 0
  antisym : ∀ a b, (cmp a b < 0 ↔ 0 < cmp b a)
  lt_trans : ∀ a b c, cmp a b < 0 → cmp b c < 0 → cmp a c < 0
  eq_of_zero : ∀ a b, cmp a b = 0 → a = b

theorem CmpSpec.zero_symm {cmp : Key → Key → Int} (h : CmpSpec cmp) {a b : Key}
    (hz : cmp a b = 0) : cmp b a = 0 := by
  have hab : a = b := h.eq_of_zero a b hz
  subst hab
  exact h.refl a

theorem CmpSpec.lt_of_ge_ne {cmp : Key → Key → Int} (h : CmpSpec cmp) {a b : Key}
    (h1 : ¬ cmp a b < 0) (h2 : cmp a b ≠ 0) : cmp b a < 0 := by
  have hpos : 0 < cmp a b := by omega
  exact (h.antisym b a).mpr hpos

/-- A concrete comparator used to instantiate the theorems: lexicographic
three-way comparison of byte strings (shorter strings sort first when one
is an initial segment of the other). -/
def lexCmp : Key → Key → Int
  | [], [] => 0
  | [], _ :: _ => -1
  | _ :: _, [] => 1
  | a :: as, b :: bs => if a < b then -1 else if b < a then 1 else lexCmp as bs

theorem lexCmp_refl (a : Key) : lexCmp a a = 0 := by
  induction a with
  | nil => rfl
  | cons x xs ih => simp [lexCmp, ih]

theorem lexCmp_neg (a : Key) : ∀ b, lexCmp a b = - lexCmp b a := by
  induction a with
  | nil =>
    intro b
    cases b <;> rfl
  | cons x xs ih =>
    intro b
    cases b with
    | nil => rfl
    | cons y ys =>
      rcases Nat.lt_trichotomy x y with hxy | hxy | hxy
      · simp [lexCmp, hxy, Nat.lt_asymm hxy]
      · subst hxy
        simp [lexCmp, Nat.lt_irrefl, ih ys]
      · simp [lexCmp, hxy, Nat.lt_asymm hxy]

theorem lexCmp_eq_zero (a : Key) : ∀ b, lexCmp a b = 0 → a = b := by
  induction a with
  | nil =>
    intro b
    cases b with
    | nil => intro _; rfl
    | cons y ys => intro h; simp [lexCmp] at h
  | cons x xs ih =>
    intro b
    cases b with
    | nil => intro h; simp [lexCmp] at h
    | cons y ys =>
      intro h
      by_cases hxy : x < y
      · simp [lexCmp, hxy] at h
      · by_cases hyx : y < x
        · simp [lexCmp, hxy, hyx] at h
        · have hx : x = y := Nat.le_antisymm (Nat.le_of_not_lt hyx) (Nat.le_of_not_lt hxy)
          have htail : lexCmp xs ys = 0 := by
            simpa [lexCmp, hxy, hyx] using h
          rw [hx, ih ys htail]

theorem lexCmp_lt_trans (a : Key) :
    ∀ b c, lexCmp a b < 0 → lexCmp b c < 0 → lexCmp a c < 0 := by
  induction a with
  | nil =>
    intro b c hab hbc
    cases b with
    | nil => simp [lexCmp] at hab
    | cons y ys =>
      cases c with
      | nil => simp [lexCmp] at hbc
      | cons z zs => simp [lexCmp]
  | cons x xs ih =>
    intro b c hab hbc
    cases b with
    | nil => simp [lexCmp] at hab
    | cons y ys =>
      cases c with
      | nil => simp [lexCmp] at hbc
      | cons z zs =>
        by_cases hxy : x < y
        · by_cases hyz : y < z
          · simp [lexCmp, Nat.lt_trans hxy hyz]
          · by_cases hzy : z < y
            · simp [lexCmp, hyz, hzy] at hbc
            · have hyz' : y = z := Nat.le_antisymm (Nat.le_of_not_lt hzy) (Nat.le_of_not_lt hyz)
              simp [lexCmp, hyz' ▸ hxy]
        · by_cases hyx : y < x
          · simp [lexCmp, hxy, hyx] at hab
          · have hxy' : x = y := Nat.le_antisymm (Nat.le_of_not_lt hyx) (Nat.le_of_not_lt hxy)
            subst hxy'
            have htail : lexCmp xs ys < 0 := by
              simpa [lexCmp, hxy, hyx] using hab
            by_cases hyz : x < z
            · simp [lexCmp, hyz]
            · by_cases hzy : z < x
              · simp [lexCmp, hyz, hzy] at hbc
              · have htail2 : lexCmp ys zs < 0 := by
                  simpa [lexCmp, hyz, hzy] using hbc
                simpa [lexCmp, hyz, hzy] using ih ys zs htail htail2

theorem lexCmp_spec : CmpSpec lexCmp := by
  refine ⟨lexCmp_refl, ?_, lexCmp_lt_trans, lexCmp_eq_zero⟩
  intro a b
  rw [lexCmp_neg a b]
  omega

/-! Slice transforms, embedded from util/slice.cc.  A Slice is a byte
string; size_t lengths are naturals. -/

/-- FixedPrefixTransform::Transform: the view of the first k bytes of src
(the constructor's prefix_len_).  The source asserts InDomain(src). -/
def fixedTransform (k : Nat) (src : Key) : Key := src.take k

/-- FixedPrefixTransform::InDomain: src.size() is at least k. -/
def fixedInDomain (k : Nat) (src : Key) : Bool := decide (k ≤ src.length)

/-- FixedPrefixTransform::SameResultWhenAppended: returns InDomain(p). -/
def fixedSRWA (k : Nat) (p : Key) : Bool := fixedInDomain k p

/-- CappedPrefixTransform::Transform: the first min(cap_len_, src.size())
bytes of src. -/
def cappedTransform (k : Nat) (src : Key) : Key := src.take (min k src.length)

/-- CappedPrefixTransform::InDomain: always true. -/
def cappedInDomain (_k : Nat) (_src : Key) : Bool := true

/-- CappedPrefixTransform::SameResultWhenAppended: p.size() >= cap_len_. -/
def cappedSRWA (k : Nat) (p : Key) : Bool := decide (k ≤ p.length)

/-- NoopTransform::Transform: the identity. -/
def noopTransform (src : Key) : Key := src

/-- NoopTransform::SameResultWhenAppended: always false. -/
def noopSRWA (_p : Key) : Bool := false

/-- ToString on a size_t, modelled from the spec: the decimal rendering
of the number (util/string_util.h is not part of the sources). -/
def natStr (n : Nat) : String := Nat.repr n

/-- FixedPrefixTransform's name_, built in its constructor. -/
def fixedName (k : Nat) : String := "rocksdb.FixedPrefix." ++ natStr k

/-- CappedPrefixTransform's name_, built in its constructor. -/
def cappedName (k : Nat) : String := "rocksdb.CappedPrefix." ++ natStr k

/-- NoopTransform::Name. -/
def noopName : String := "rocksdb.Noop"

/-! HashLinkListRep, embedded from util/hash_linklist_rep.cc.  A bucket is
the chain of nodes reachable from its head through the successor links,
modelled as the list of the nodes' keys (a null head is the empty list).
The index state maps every bucket slot to its chain.  The construction
parameters are gathered in a record; MurmurHash seed 0 (util/murmurhash,
not among the sources) and the memtable decoders UserKey / Transform are
abstract functions of that record. -/

structure Config where
  cmp : Key → Key → Int
  murmur : Key → Nat
  transform : Key → Key
  userKey : Key → Key
  bucketSize : Nat

/-- HashLinkListRep::GetHash: MurmurHash(slice, seed 0) mod bucket_size_. -/
def Config.getHash (c : Config) (slice : Key) : Nat :=
  c.murmur slice % c.bucketSize

/-- The transformed user key of an entry: transform_->Transform(UserKey(key)),
as computed at the top of Insert and Contains. -/
def Config.pfxKey (c : Config) (key : Key) : Key :=
  c.transform (c.userKey key)

/-- The bucket array: slot index to chain of keys. -/
abbrev RepState := Nat → List Key

/-- The freshly constructed index: every bucket head is null. -/
def emptyRep : RepState := fun _ => []

/-- The splice performed by HashLinkListRep::Insert inside one bucket: walk
with prev and cur while KeyIsAfterNode(key, cur), that is while cur is
non-null and cmp(cur.key, key) < 0, then link a new node for key in front
of cur.  A null head receives the one-node chain directly. -/
def bucketInsert (cmp : Key → Key → Int) (key : Key) : List Key → List Key
  | [] => [key]
  | cur :: rest =>
      if cmp cur key < 0 then cur :: bucketInsert cmp key rest
      else key :: cur :: rest

/-- HashLinkListRep::Insert: hash the transformed user key to a slot and
splice the entry into that bucket's chain; every other slot is untouched. -/
def HashLinkListRep.Insert (c : Config) (st : RepState) (key : Key) : RepState :=
  fun i =>
    if i = c.getHash (c.pfxKey key) then
      bucketInsert c.cmp key (st (c.getHash (c.pfxKey key)))
    else st i

/-- HashLinkListRep::FindGreaterOrEqualInBucket: walk from the head while
KeyIsAfterNode(key, x) (x non-null and cmp(x.key, key) < 0); the answer is
the node where the walk stops, null when the chain runs out. -/
def findGEQ (cmp : Key → Key → Int) (key : Key) : List Key → Option Key
  | [] => none
  | x :: rest => if cmp x key < 0 then findGEQ cmp key rest else some x

/-- HashLinkListRep::BucketContains: find-greater-or-equal, then true iff
the result is non-null and Equal(key, x.key), i.e. cmp(key, x.key) = 0. -/
def HashLinkListRep.BucketContains (cmp : Key → Key → Int) (head : List Key) (key : Key) : Bool :=
  match findGEQ cmp key head with
  | some x => decide (cmp key x = 0)
  | none => false

/-- HashLinkListRep::Contains: derive the bucket from the transformed user
key; a null bucket answers false, otherwise BucketContains decides. -/
def HashLinkListRep.Contains (c : Config) (st : RepState) (key : Key) : Bool :=
  match st (c.getHash (c.pfxKey key)) with
  | [] => false
  | x :: rest => HashLinkListRep.BucketContains c.cmp (x :: rest) key

/-- The index state after a sequence of Insert calls starting from st. -/
def buildFrom (c : Config) (st : RepState) (ks : List Key) : RepState :=
  ks.foldl (HashLinkListRep.Insert c) st

/-- The index state after a sequence of Insert calls on a fresh index. -/
def buildRep (c : Config) (ks : List Key) : RepState :=
  buildFrom c emptyRep ks

/-- Strict ascent of a chain under the comparator. -/
def chainLt (cmp : Key → Key → Int) (l : List Key) : Prop :=
  l.Pairwise (fun a b => cmp a b < 0)

/-- Pairwise non-equality under the comparator (the non-duplicate
precondition of Insert). -/
def pairwiseNE (cmp : Key → Key → Int) (l : List Key) : Prop :=
  l.Pairwise (fun a b => cmp a b ≠ 0)

instance (cmp : Key → Key → Int) (l : List Key) : Decidable (chainLt cmp l) :=
  inferInstanceAs (Decidable (List.Pairwise (fun a b => cmp a b < 0) l))

instance (cmp : Key → Key → Int) (l : List Key) : Decidable (pairwiseNE cmp l) :=
  inferInstanceAs (Decidable (List.Pairwise (fun a b => cmp a b ≠ 0) l))

/-- A concrete configuration used to instantiate the theorems: four
buckets, hashing a byte string to its first byte, identity decoders. -/
def cfg0 : Config :=
  { cmp := lexCmp
    murmur := fun l => l.headD 0
    transform := fun l => l
    userKey := fun l => l
    bucketSize := 4 }

/-! Chain-level lemmas about the bucket splice and the bucket search. -/

theorem mem_bucketInsert {cmp : Key → Key → Int} {key x : Key} :
    ∀ {l : List Key}, x ∈ bucketInsert cmp key l ↔ x = key ∨ x ∈ l := by
  intro l
  induction l with
  | nil => simp [bucketInsert]
  | cons cur rest ih =>
    by_cases h : cmp cur key < 0
    · simp only [bucketInsert, if_pos h, List.mem_cons, ih]
      tauto
    · simp only [bucketInsert, if_neg h, List.mem_cons]

theorem bucketInsert_perm (cmp : Key → Key → Int) (key : Key) :
    ∀ l : List Key, (bucketInsert cmp key l).Perm (key :: l) := by
  intro l
  induction l with
  | nil => simp [bucketInsert]
  | cons cur rest ih =>
    by_cases h : cmp cur key < 0
    · simp only [bucketInsert, if_pos h]
      exact (ih.cons cur).trans (List.Perm.swap key cur rest)
    · simp [bucketInsert, if_neg h]

theorem bucketInsert_sorted {cmp : Key → Key → Int} (hc : CmpSpec cmp) {key : Key} :
    ∀ {l : List Key}, chainLt cmp l → (∀ x ∈ l, cmp x key ≠ 0) →
      chainLt cmp (bucketInsert cmp key l) := by
  intro l
  induction l with
  | nil => intro _ _; simp [bucketInsert, chainLt]
  | cons cur rest ih =>
    intro hs hne
    rw [chainLt, List.pairwise_cons] at hs
    by_cases h : cmp cur key < 0
    · rw [chainLt]
      simp only [bucketInsert, if_pos h]
      rw [List.pairwise_cons]
      constructor
      · intro b hb
        rcases mem_bucketInsert.mp hb with hb | hb
        · exact hb ▸ h
        · exact hs.1 b hb
      · exact ih hs.2 (fun x hx => hne x (List.mem_cons_of_mem cur hx))
    · have hkc : cmp key cur < 0 :=
        hc.lt_of_ge_ne h (hne cur (List.mem_cons_self cur rest))
      rw [chainLt]
      simp only [bucketInsert, if_neg h]
      rw [List.pairwise_cons]
      refine ⟨?_, List.pairwise_cons.mpr hs⟩
      intro b hb
      rcases List.mem_cons.mp hb with hb | hb
      · exact hb ▸ hkc
      · exact hc.lt_trans key cur b hkc (hs.1 b hb)

theorem bucketInsert_splice (cmp : Key → Key → Int) (key : Key) :
    ∀ l : List Key,
      bucketInsert cmp key l =
        l.takeWhile (fun x => decide (cmp x key < 0)) ++
          key :: l.dropWhile (fun x => decide (cmp x key < 0)) := by
  intro l
  induction l with
  | nil => rfl
  | cons cur rest ih =>
    by_cases h : cmp cur key < 0
    · simp [bucketInsert, List.takeWhile, List.dropWhile, h, ih]
    · simp [bucketInsert, List.takeWhile, List.dropWhile, h]

theorem findGEQ_mem {cmp : Key → Key → Int} {key x : Key} :
    ∀ {l : List Key}, findGEQ cmp key l = some x → x ∈ l := by
  intro l
  induction l with
  | nil => intro h; simp [findGEQ] at h
  | cons cur rest ih =>
    intro h
    by_cases hlt : cmp cur key < 0
    · simp only [findGEQ, if_pos hlt] at h
      exact List.mem_cons_of_mem cur (ih h)
    · simp only [findGEQ, if_neg hlt, Option.some.injEq] at h
      exact h ▸ List.mem_cons_self cur rest

theorem findGEQ_self {cmp : Key → Key → Int} (hc : CmpSpec cmp) {e : Key} :
    ∀ {l : List Key}, chainLt cmp l → e ∈ l → findGEQ cmp e l = some e := by
  intro l
  induction l with
  | nil => intro _ he; exact absurd he (List.not_mem_nil e)
  | cons cur rest ih =>
    intro hs he
    rw [chainLt, List.pairwise_cons] at hs
    rcases List.mem_cons.mp he with he | he
    · subst he
      have : ¬ cmp e e < 0 := by rw [hc.refl e]; omega
      simp [findGEQ, this]
    · have hlt : cmp cur e < 0 := hs.1 e he
      simp only [findGEQ, if_pos hlt]
      exact ih hs.2 he

/-! State-level lemmas: what one Insert does to each slot, and what a
whole insertion sequence leaves in the buckets. -/

theorem Insert_ne {c : Config} {st : RepState} {key : Key} {i : Nat}
    (h : i ≠ c.getHash (c.pfxKey key)) :
    HashLinkListRep.Insert c st key i = st i := if_neg h

theorem Insert_eq (c : Config) (st : RepState) (key : Key) :
    HashLinkListRep.Insert c st key (c.getHash (c.pfxKey key)) =
      bucketInsert c.cmp key (st (c.getHash (c.pfxKey key))) := if_pos rfl

theorem mem_Insert {c : Config} {st : RepState} {key x : Key} {i : Nat} :
    x ∈ HashLinkListRep.Insert c st key i ↔
      (i = c.getHash (c.pfxKey key) ∧ x = key) ∨ x ∈ st i := by
  by_cases h : i = c.getHash (c.pfxKey key)
  · subst h
    rw [Insert_eq, mem_bucketInsert]
    tauto
  · rw [Insert_ne h]
    tauto

theorem buildFrom_cons (c : Config) (st : RepState) (k : Key) (rest : List Key) :
    buildFrom c st (k :: rest) = buildFrom c (HashLinkListRep.Insert c st k) rest := rfl

theorem mem_buildFrom {c : Config} {x : Key} {i : Nat} :
    ∀ {ks : List Key} {st : RepState},
      x ∈ buildFrom c st ks i ↔
        (x ∈ ks ∧ i = c.getHash (c.pfxKey x)) ∨ x ∈ st i := by
  intro ks
  induction ks with
  | nil => intro st; simp [buildFrom]
  | cons k rest ih =>
    intro st
    rw [buildFrom_cons, ih]
    constructor
    · rintro (⟨hx, hi⟩ | hst)
      · exact Or.inl ⟨List.mem_cons_of_mem k hx, hi⟩
      · rcases mem_Insert.mp hst with ⟨hi, hx⟩ | hst
        · subst hx
          exact Or.inl ⟨List.mem_cons_self _ _, hi⟩
        · exact Or.inr hst
    · rintro (⟨hx, hi⟩ | hst)
      · rcases List.mem_cons.mp hx with hx | hx
        · subst hx
          exact Or.inr (mem_Insert.mpr (Or.inl ⟨hi, rfl⟩))
        · exact Or.inl ⟨hx, hi⟩
      · exact Or.inr (mem_Insert.mpr (Or.inr hst))

theorem mem_buildRep {c : Config} {x : Key} {i : Nat} {ks : List Key} :
    x ∈ buildRep c ks i ↔ x ∈ ks ∧ i = c.getHash (c.pfxKey x) := by
  rw [buildRep, mem_buildFrom]
  simp [emptyRep]

theorem buildFrom_sorted {c : Config} (hc : CmpSpec c.cmp) :
    ∀ {ks : List Key} {st : RepState},
      (∀ i, chainLt c.cmp (st i)) →
      (∀ k ∈ ks, ∀ i, ∀ x ∈ st i, c.cmp x k ≠ 0) →
      pairwiseNE c.cmp ks →
      ∀ i, chainLt c.cmp (buildFrom c st ks i) := by
  intro ks
  induction ks with
  | nil => intro st hs _ _ i; exact hs i
  | cons k rest ih =>
    intro st hs hcross hnd
    rw [pairwiseNE, List.pairwise_cons] at hnd
    have hs' : ∀ j, chainLt c.cmp (HashLinkListRep.Insert c st k j) := by
      intro j
      by_cases hj : j = c.getHash (c.pfxKey k)
      · subst hj
        rw [Insert_eq]
        exact bucketInsert_sorted hc (hs _)
          (fun x hx => hcross k (List.mem_cons_self k rest) _ x hx)
      · rw [Insert_ne hj]
        exact hs j
    have hcross' : ∀ k' ∈ rest, ∀ j, ∀ x ∈ HashLinkListRep.Insert c st k j,
        c.cmp x k' ≠ 0 := by
      intro k' hk' j x hx
      rcases mem_Insert.mp hx with ⟨_, hxk⟩ | hx
      · exact hxk ▸ hnd.1 k' hk'
      · exact hcross k' (List.mem_cons_of_mem k hk') j x hx
    rw [buildFrom_cons]
    exact ih hs' hcross' hnd.2

theorem buildRep_sorted {c : Config} (hc : CmpSpec c.cmp) {ks : List Key}
    (hnd : pairwiseNE c.cmp ks) : ∀ i, chainLt c.cmp (buildRep c ks i) :=
  buildFrom_sorted hc (fun _ => List.Pairwise.nil)
    (fun _ _ _ x hx => absurd hx (List.not_mem_nil x)) hnd

/-! Membership correctness. -/

theorem Contains_eq_findGEQ (c : Config) (st : RepState) (e : Key) :
    HashLinkListRep.Contains c st e =
      (match findGEQ c.cmp e (st (c.getHash (c.pfxKey e))) with
        | some x => decide (c.cmp e x = 0)
        | none => false) := by
  unfold HashLinkListRep.Contains HashLinkListRep.BucketContains
  cases hb : st (c.getHash (c.pfxKey e)) with
  | nil => simp [findGEQ]
  | cons y rest => rfl

theorem contains_buildRep_iff {c : Config} (hc : CmpSpec c.cmp) {ks : List Key}
    (hnd : pairwiseNE c.cmp ks) (e : Key) :
    HashLinkListRep.Contains c (buildRep c ks) e = true ↔ e ∈ ks := by
  rw [Contains_eq_findGEQ]
  constructor
  · intro h
    rcases hf : findGEQ c.cmp e (buildRep c ks (c.getHash (c.pfxKey e))) with _ | x
    · rw [hf] at h
      simp at h
    · rw [hf] at h
      simp only [decide_eq_true_eq] at h
      have hx := findGEQ_mem hf
      have hex : e = x := hc.eq_of_zero e x h
      subst hex
      exact (mem_buildRep.mp hx).1
  · intro he
    have hmem : e ∈ buildRep c ks (c.getHash (c.pfxKey e)) :=
      mem_buildRep.mpr ⟨he, rfl⟩
    have hsorted := buildRep_sorted hc hnd (c.getHash (c.pfxKey e))
    rw [findGEQ_self hc hsorted hmem]
    simp [hc.refl e]

/-- C1: for every sequence of Insert calls whose keys are pairwise
non-equal under the comparator, after the sequence completes, in every
bucket the chain of successor links starting at the bucket head is
strictly increasing under the comparator. -/
theorem C1_chains_strictly_increasing (c : Config) (ks : List Key)
    (hc : CmpSpec c.cmp) (hnd : pairwiseNE c.cmp ks) :
    ∀ i, chainLt c.cmp (buildRep c ks i) :=
  buildRep_sorted hc hnd

/-- Witness for C1 at a concrete configuration: three keys that all hash
to slot 1 of cfg0. -/
theorem C1_witness :
    chainLt cfg0.cmp (buildRep cfg0 [[5], [1], [1, 3]] 1) :=
  C1_chains_strictly_increasing cfg0 [[5], [1], [1, 3]] lexCmp_spec (by decide) 1

/-- C2: after any sequence of non-duplicate Insert calls, Contains is true
exactly on the inserted entries, and Contains is computed by deriving the
bucket of its argument's transformed user key, finding the first node
greater or equal, and comparing it equal. -/
theorem C2_contains_iff_inserted (c : Config) (ks : List Key)
    (hc : CmpSpec c.cmp) (hnd : pairwiseNE c.cmp ks) :
    (∀ e ∈ ks, HashLinkListRep.Contains c (buildRep c ks) e = true) ∧
    (∀ e', e' ∉ ks → HashLinkListRep.Contains c (buildRep c ks) e' = false) ∧
    (∀ st e, HashLinkListRep.Contains c st e =
      (match findGEQ c.cmp e (st (c.getHash (c.pfxKey e))) with
        | some x => decide (c.cmp e x = 0)
        | none => false)) := by
  refine ⟨?_, ?_, fun st e => Contains_eq_findGEQ c st e⟩
  · intro e he
    exact (contains_buildRep_iff hc hnd e).mpr he
  · intro e' he'
    cases h : HashLinkListRep.Contains c (buildRep c ks) e' with
    | false => rfl
    | true => exact absurd ((contains_buildRep_iff hc hnd e').mp h) he'

/-- Witness for C2: a two-key build in cfg0; membership of an inserted
key, rejection of a fresh key whose bucket is non-empty, and the
find-greater-or-equal shape at one state. -/
theorem C2_witness :
    HashLinkListRep.Contains cfg0 (buildRep cfg0 [[1], [5]]) [5] = true ∧
    HashLinkListRep.Contains cfg0 (buildRep cfg0 [[1], [5]]) [1, 2] = false := by
  have h := C2_contains_iff_inserted cfg0 [[1], [5]] lexCmp_spec (by decide)
  exact ⟨h.1 [5] (by decide), h.2.1 [1, 2] (by decide)⟩

/-- C3: every entry stored in the index sits in the bucket indexed by the
hash of its transformed user key modulo the bucket count, after every
insertion sequence (and hence after every single Insert). -/
theorem C3_bucket_of_entry (c : Config) (ks : List Key) :
    ∀ i x, x ∈ buildRep c ks i →
      c.murmur (c.transform (c.userKey x)) % c.bucketSize = i := by
  intro i x hx
  exact ((mem_buildRep.mp hx).2).symm

/-- Witness for C3: the key 5 of cfg0 lives in slot 5 mod 4 = 1. -/
theorem C3_witness :
    cfg0.murmur (cfg0.transform (cfg0.userKey [5])) % cfg0.bucketSize = 1 :=
  C3_bucket_of_entry cfg0 [[1], [5]] 1 [5] (by decide)

/-- C7: Contains is monotone under Insert: in the state reached by any
non-duplicate insertion sequence, if Contains(e) is true then it is still
true after one further Insert of a fresh key. -/
theorem C7_contains_monotone (c : Config) (ks : List Key) (k e : Key)
    (hc : CmpSpec c.cmp) (hnd : pairwiseNE c.cmp ks)
    (hk : ∀ j ∈ ks, c.cmp k j ≠ 0)
    (h : HashLinkListRep.Contains c (buildRep c ks) e = true) :
    HashLinkListRep.Contains c
      (HashLinkListRep.Insert c (buildRep c ks) k) e = true := by
  have he : e ∈ ks := (contains_buildRep_iff hc hnd e).mp h
  have hstep : HashLinkListRep.Insert c (buildRep c ks) k =
      buildRep c (ks ++ [k]) := by
    simp only [buildRep, buildFrom, List.foldl_append, List.foldl_cons,
      List.foldl_nil]
  have hnd' : pairwiseNE c.cmp (ks ++ [k]) := by
    rw [pairwiseNE, List.pairwise_append]
    refine ⟨hnd, List.pairwise_singleton _ _, ?_⟩
    intro a ha b hb
    have hbk : b = k := List.mem_singleton.mp hb
    subst hbk
    intro hz
    exact hk a ha (hc.zero_symm hz)
  rw [hstep]
  exact (contains_buildRep_iff hc hnd' e).mpr (List.mem_append_left _ he)

/-- Witness for C7: key 1 stays contained after inserting key 5 into the
same bucket of cfg0. -/
theorem C7_witness :
    HashLinkListRep.Contains cfg0
      (HashLinkListRep.Insert cfg0 (buildRep cfg0 [[1], [1, 3]]) [1, 2]) [1] = true :=
  C7_contains_monotone cfg0 [[1], [1, 3]] [1, 2] [1] lexCmp_spec
    (by decide) (by decide) (by decide)

/-! The same-result-when-appended law (util/slice.cc). -/

/-- C5 as stated is false on the code: the fixed-length extractor answers
true for any input at least k bytes long, yet transforming an appended
string returns only the first k bytes, not the whole input.  Concretely,
with k = 1 and p = [0,0], SameResultWhenAppended(p) holds but
Transform(p concatenated with [1]) = [0] differs from p. -/
theorem C5_counterexample :
    fixedSRWA 1 [0, 0] = true ∧ fixedTransform 1 ([0, 0] ++ [1]) ≠ [0, 0] := by
  decide

/-- C5 amended: for the fixed-length and capped-length extractors,
same_result_when_appended(p) implies that transforming p with any suffix
appended gives the same result as transforming p itself (not p verbatim);
the identity extractor's flag is constantly false, so its implication is
vacuous. -/
theorem C5_srwa_appended (k : Nat) (p s : Key) :
    (fixedSRWA k p = true → fixedTransform k (p ++ s) = fixedTransform k p) ∧
    (cappedSRWA k p = true → cappedTransform k (p ++ s) = cappedTransform k p) ∧
    noopSRWA p = false := by
  refine ⟨?_, ?_, rfl⟩
  · intro h
    have hk : k ≤ p.length := by
      simpa [fixedSRWA, fixedInDomain] using h
    unfold fixedTransform
    exact List.take_append_of_le_length hk
  · intro h
    have hk : k ≤ p.length := by
      simpa [cappedSRWA] using h
    have hk2 : k ≤ (p ++ s).length := by
      rw [List.length_append]
      omega
    unfold cappedTransform
    rw [min_eq_left hk, min_eq_left hk2]
    exact List.take_append_of_le_length hk

/-- Witness for the amended C5 at k = 2, p = [1,2,3], s = [4]. -/
theorem C5_witness :
    fixedTransform 2 ([1, 2, 3] ++ [4]) = fixedTransform 2 [1, 2, 3] ∧
    cappedTransform 2 ([1, 2, 3] ++ [4]) = cappedTransform 2 [1, 2, 3] ∧
    noopSRWA [1, 2, 3] = false :=
  ⟨(C5_srwa_appended 2 [1, 2, 3] [4]).1 (by decide),
   (C5_srwa_appended 2 [1, 2, 3] [4]).2.1 (by decide),
   (C5_srwa_appended 2 [1, 2, 3] [4]).2.2⟩

/-- C8: the three standard extractors report exactly the persisted
identifiers rocksdb.FixedPrefix.k, rocksdb.CappedPrefix.k, rocksdb.Noop. -/
theorem C8_extractor_names :
    noopName = "rocksdb.Noop" ∧
    (∀ k, fixedName k = "rocksdb.FixedPrefix." ++ Nat.repr k) ∧
    (∀ k, cappedName k = "rocksdb.CappedPrefix." ++ Nat.repr k) ∧
    fixedName 8 = "rocksdb.FixedPrefix.8" ∧
    cappedName 10 = "rocksdb.CappedPrefix.10" :=
  ⟨rfl, fun _ => rfl, fun _ => rfl, by decide, by decide⟩

/-- C9: Insert touches only the bucket of the inserted key's transformed
user key: every other slot is left untouched, and that one bucket changes
by splicing the new key between a left part and a right part of the old
chain (so at most one existing successor link moves, and no stored key
changes). -/
theorem C9_insert_frame (c : Config) (st : RepState) (key : Key) :
    (∀ i, i ≠ c.getHash (c.pfxKey key) → HashLinkListRep.Insert c st key i = st i) ∧
    (∃ l₁ l₂, st (c.getHash (c.pfxKey key)) = l₁ ++ l₂ ∧
      HashLinkListRep.Insert c st key (c.getHash (c.pfxKey key)) =
        l₁ ++ key :: l₂) := by
  constructor
  · intro i hi
    exact Insert_ne hi
  · refine ⟨(st (c.getHash (c.pfxKey key))).takeWhile (fun x => decide (c.cmp x key < 0)),
      (st (c.getHash (c.pfxKey key))).dropWhile (fun x => decide (c.cmp x key < 0)),
      (List.takeWhile_append_dropWhile _ _).symm, ?_⟩
    rw [Insert_eq]
    exact bucketInsert_splice c.cmp key _

/-- Witness for C9: inserting key 5 into cfg0 leaves slot 3 unchanged and
splices slot 1. -/
theorem C9_witness :
    HashLinkListRep.Insert cfg0 (buildRep cfg0 [[1]]) [5] 3 = buildRep cfg0 [[1]] 3 ∧
    (∃ l₁ l₂, buildRep cfg0 [[1]] (cfg0.getHash (cfg0.pfxKey [5])) = l₁ ++ l₂ ∧
      HashLinkListRep.Insert cfg0 (buildRep cfg0 [[1]]) [5]
        (cfg0.getHash (cfg0.pfxKey [5])) = l₁ ++ [5] :: l₂) :=
  ⟨(C9_insert_frame cfg0 (buildRep cfg0 [[1]]) [5]).1 3 (by decide),
   (C9_insert_frame cfg0 (buildRep cfg0 [[1]]) [5]).2⟩

/-! Iterators. -/

/-- The iterator returned by GetIterator(slice) / GetPrefixIterator: the
EmptyIterator when the bucket head is null, otherwise a per-bucket
Iterator built on the bucket head. -/
inductive MemIter where
  | emptyIt : MemIter
  | bucketIt : List Key → MemIter
deriving DecidableEq

/-- HashLinkListRep::GetPrefixIterator: look up the bucket of the given
slice; a null bucket yields the EmptyIterator. -/
def GetPfxIterator (c : Config) (st : RepState) (p : Key) : MemIter :=
  match st (c.getHash p) with
  | [] => MemIter.emptyIt
  | x :: rest => MemIter.bucketIt (x :: rest)

/-- HashLinkListRep::GetIterator(const Slice&): GetPrefixIterator applied
to the transformed slice. -/
def GetIteratorSlice (c : Config) (st : RepState) (slice : Key) : MemIter :=
  GetPfxIterator c st (c.transform slice)

/-- C10: GetIterator(slice) is the iterator GetPrefixIterator(transform
slice): the EmptyIterator when the transformed slice's bucket is null,
else the per-bucket iterator over that same bucket head. -/
theorem C10_getIterator_equiv (c : Config) (st : RepState) (slice : Key) :
    GetIteratorSlice c st slice = GetPfxIterator c st (c.transform slice) ∧
    (st (c.getHash (c.transform slice)) = [] →
      GetIteratorSlice c st slice = MemIter.emptyIt) ∧
    (st (c.getHash (c.transform slice)) ≠ [] →
      GetIteratorSlice c st slice =
        MemIter.bucketIt (st (c.getHash (c.transform slice)))) := by
  refine ⟨rfl, ?_, ?_⟩
  · intro h
    unfold GetIteratorSlice GetPfxIterator
    rw [h]
  · intro h
    unfold GetIteratorSlice GetPfxIterator
    cases hb : st (c.getHash (c.transform slice)) with
    | nil => exact absurd hb h
    | cons x rest => rfl

/-- Witness for C10: in cfg0 after inserting key 1, slice 2 meets a null
bucket and slice 1 meets the bucket holding key 1. -/
theorem C10_witness :
    GetIteratorSlice cfg0 (buildRep cfg0 [[1]]) [2] = MemIter.emptyIt ∧
    GetIteratorSlice cfg0 (buildRep cfg0 [[1]]) [1] =
      MemIter.bucketIt (buildRep cfg0 [[1]] (cfg0.getHash (cfg0.transform [1]))) :=
  ⟨(C10_getIterator_equiv cfg0 (buildRep cfg0 [[1]]) [2]).2.1 (by decide),
   (C10_getIterator_equiv cfg0 (buildRep cfg0 [[1]]) [1]).2.2 (by decide)⟩

/-- Per-bucket prefix iterator (HashLinkListRep::Iterator): the bucket
head it was built on and the current node. -/
structure PIter where
  head : List Key
  node : Option Key
deriving DecidableEq

/-- Iterator::Valid: the cursor points at a node. -/
def PIter.valid (it : PIter) : Bool := it.node.isSome

/-- Iterator::Reset: install a new head and invalidate the cursor. -/
def PIter.reset (_it : PIter) (h : List Key) : PIter := ⟨h, none⟩

/-- Iterator::Seek: position at the first node of the current bucket whose
key is greater or equal to the target. -/
def PIter.seek (cmp : Key → Key → Int) (target : Key) (it : PIter) : PIter :=
  ⟨it.head, findGEQ cmp target it.head⟩

/-- Iterator::Prev: prefix iterators do not support total order; the code
calls Reset(nullptr), clearing both the cursor and the bucket head. -/
def PIter.prev (it : PIter) : PIter := it.reset []

/-- Iterator::SeekToFirst: likewise Reset(nullptr). -/
def PIter.seekToFirst (it : PIter) : PIter := it.reset []

/-- C6 as stated is false on the code: Prev and SeekToFirst pass nullptr
to Reset, which clears the bucket head as well, so re-seeking the original
target finds nothing and the iterator stays invalid. -/
theorem C6_counterexample :
    (PIter.seek lexCmp [0] ⟨[[0]], none⟩).valid = true ∧
    (PIter.seek lexCmp [0]
      (PIter.seekToFirst (PIter.prev
        (PIter.seek lexCmp [0] ⟨[[0]], none⟩)))).valid = false := by
  decide

/-- C6 amended: from a position made valid by Seek, Prev leaves the
iterator invalid, SeekToFirst leaves it invalid, and re-seeking the
original target also leaves it invalid, because Reset(nullptr) cleared
the bucket head. -/
theorem C6_iterator_reset_ops (cmp : Key → Key → Int) (b : List Key) (target : Key)
    (_hvalid : (PIter.seek cmp target ⟨b, none⟩).valid = true) :
    (PIter.prev (PIter.seek cmp target ⟨b, none⟩)).valid = false ∧
    (PIter.seekToFirst (PIter.prev
      (PIter.seek cmp target ⟨b, none⟩))).valid = false ∧
    (PIter.seek cmp target (PIter.seekToFirst (PIter.prev
      (PIter.seek cmp target ⟨b, none⟩)))).valid = false :=
  ⟨rfl, rfl, rfl⟩

/-- Witness for the amended C6 on a one-node bucket of lexCmp. -/
theorem C6_witness :
    (PIter.prev (PIter.seek lexCmp [0] ⟨[[0]], none⟩)).valid = false ∧
    (PIter.seekToFirst (PIter.prev
      (PIter.seek lexCmp [0] ⟨[[0]], none⟩))).valid = false ∧
    (PIter.seek lexCmp [0] (PIter.seekToFirst (PIter.prev
      (PIter.seek lexCmp [0] ⟨[[0]], none⟩)))).valid = false :=
  C6_iterator_reset_ops lexCmp [[0]] [0] (by decide)

/-! The materialized full-order iterator (GetIterator()). -/

/-- Modelled from the spec: the total-order auxiliary structure filled by
GetIterator is an ordered skip-list keyed by the same comparator
(db/skiplist.h is not among the sources); its Insert places a key
immediately before the first resident key that is greater or equal, the
same sorted splice the bucket chains use. -/
def skiplistInsert (cmp : Key → Key → Int) (key : Key) (l : List Key) : List Key :=
  bucketInsert cmp key l

/-- HashLinkListRep::GetIterator(): for each bucket slot in order, walk
the chain from SeekToHead via Next and insert every visited key into a
fresh skip-list.  The FullListIterator visits exactly that list front to
back via SeekToFirst and repeated Next, so the list is the visiting
order. -/
def fullListOf (c : Config) (st : RepState) : List Key :=
  (List.range c.bucketSize).foldl
    (fun acc i => (st i).foldl (fun a k => skiplistInsert c.cmp k a) acc) []

/-- Concatenation of a list of bucket chains. -/
def concatAll : List (List Key) → List Key
  | [] => []
  | b :: bs => b ++ concatAll bs

theorem concatAll_append (xs ys : List (List Key)) :
    concatAll (xs ++ ys) = concatAll xs ++ concatAll ys := by
  induction xs with
  | nil => rfl
  | cons b bs ih => simp [concatAll, ih]

theorem innerFold_perm (cmp : Key → Key → Int) :
    ∀ (l acc : List Key),
      (l.foldl (fun a k => skiplistInsert cmp k a) acc).Perm (l ++ acc) := by
  intro l
  induction l with
  | nil => intro acc; simp
  | cons k rest ih =>
    intro acc
    have h1 := ih (skiplistInsert cmp k acc)
    have h2 : (rest ++ skiplistInsert cmp k acc).Perm (rest ++ k :: acc) :=
      (bucketInsert_perm cmp k acc).append_left rest
    have h3 : (rest ++ k :: acc).Perm (k :: (rest ++ acc)) := List.perm_middle
    exact ((h1.trans h2).trans h3).symm.symm

theorem innerFold_sorted {cmp : Key → Key → Int} (hc : CmpSpec cmp) :
    ∀ (l acc : List Key), chainLt cmp acc → pairwiseNE cmp (l ++ acc) →
      chainLt cmp (l.foldl (fun a k => skiplistInsert cmp k a) acc) := by
  intro l
  induction l with
  | nil => intro acc hs _; exact hs
  | cons k rest ih =>
    intro acc hs hne
    rw [pairwiseNE, List.cons_append, List.pairwise_cons] at hne
    have hka : ∀ x ∈ acc, cmp x k ≠ 0 := by
      intro x hx hz
      exact hne.1 x (List.mem_append_right rest hx) (hc.zero_symm hz)
    have hacc' : chainLt cmp (skiplistInsert cmp k acc) :=
      bucketInsert_sorted hc hs hka
    have hsymm : ∀ {x y : Key}, cmp x y ≠ 0 → cmp y x ≠ 0 :=
      fun h hz => h (hc.zero_symm hz)
    have hne' : pairwiseNE cmp (rest ++ skiplistInsert cmp k acc) := by
      have hperm : (rest ++ k :: acc).Perm (rest ++ skiplistInsert cmp k acc) :=
        ((bucketInsert_perm cmp k acc).append_left rest).symm
      have hmid : List.Pairwise (fun a b => cmp a b ≠ 0) (rest ++ k :: acc) := by
        rw [List.pairwise_append]
        have h2 := hne.2
        rw [List.pairwise_append] at h2
        obtain ⟨hrest, hacc, hcross⟩ := h2
        refine ⟨hrest, ?_, ?_⟩
        · rw [List.pairwise_cons]
          exact ⟨fun b hb => hne.1 b (List.mem_append_right rest hb), hacc⟩
        · intro a ha b hb
          rcases List.mem_cons.mp hb with hb | hb
          · subst hb
            intro hz
            exact hne.1 a (List.mem_append_left acc ha) (hc.zero_symm hz)
          · exact hcross a ha b hb
      rw [pairwiseNE]
      exact (List.Perm.pairwise_iff hsymm hperm).mp hmid
    exact ih (skiplistInsert cmp k acc) hacc' hne'

theorem outerFold_perm (cmp : Key → Key → Int) :
    ∀ (bs : List (List Key)) (acc : List Key),
      (bs.foldl (fun a b => b.foldl (fun a' k => skiplistInsert cmp k a') a) acc).Perm
        (concatAll bs ++ acc) := by
  intro bs
  induction bs with
  | nil => intro acc; simp [concatAll]
  | cons b rest ih =>
    intro acc
    have h1 := ih (b.foldl (fun a' k => skiplistInsert cmp k a') acc)
    have h2 : (concatAll rest ++
        b.foldl (fun a' k => skiplistInsert cmp k a') acc).Perm
        (concatAll rest ++ (b ++ acc)) :=
      (innerFold_perm cmp b acc).append_left (concatAll rest)
    have h3 : (concatAll rest ++ (b ++ acc)).Perm ((b ++ concatAll rest) ++ acc) := by
      rw [← List.append_assoc]
      exact (List.perm_append_comm.append_right acc)
    exact (h1.trans h2).trans h3

theorem outerFold_sorted {cmp : Key → Key → Int} (hc : CmpSpec cmp) :
    ∀ (bs : List (List Key)) (acc : List Key),
      chainLt cmp acc → pairwiseNE cmp (concatAll bs ++ acc) →
      chainLt cmp
        (bs.foldl (fun a b => b.foldl (fun a' k => skiplistInsert cmp k a') a) acc) := by
  intro bs
  induction bs with
  | nil => intro acc hs _; exact hs
  | cons b rest ih =>
    intro acc hs hne
    have hsymm : ∀ {x y : Key}, cmp x y ≠ 0 → cmp y x ≠ 0 :=
      fun h hz => h (hc.zero_symm hz)
    have hne0 : pairwiseNE cmp (b ++ (concatAll rest ++ acc)) := by
      have : concatAll (b :: rest) ++ acc = b ++ (concatAll rest ++ acc) := by
        simp [concatAll]
      exact this ▸ hne
    rw [pairwiseNE, List.pairwise_append] at hne0
    obtain ⟨hb, hra, hcross⟩ := hne0
    have hbacc : pairwiseNE cmp (b ++ acc) := by
      rw [pairwiseNE, List.pairwise_append]
      rw [List.pairwise_append] at hra
      exact ⟨hb, hra.2.1, fun a ha b' hb' =>
        hcross a ha b' (List.mem_append_right (concatAll rest) hb')⟩
    have hacc' : chainLt cmp (b.foldl (fun a' k => skiplistInsert cmp k a') acc) :=
      innerFold_sorted hc b acc hs hbacc
    have hne' : pairwiseNE cmp
        (concatAll rest ++ b.foldl (fun a' k => skiplistInsert cmp k a') acc) := by
      have hperm1 : (b ++ acc).Perm (b.foldl (fun a' k => skiplistInsert cmp k a') acc) :=
        (innerFold_perm cmp b acc).symm
      have hperm : (concatAll rest ++ (b ++ acc)).Perm
          (concatAll rest ++ b.foldl (fun a' k => skiplistInsert cmp k a') acc) :=
        hperm1.append_left (concatAll rest)
      have hsrc : pairwiseNE cmp (concatAll rest ++ (b ++ acc)) := by
        rw [pairwiseNE, List.pairwise_append]
        rw [List.pairwise_append] at hra
        refine ⟨hra.1, ?_, ?_⟩
        · rw [pairwiseNE, List.pairwise_append] at hbacc
          rw [List.pairwise_append]
          exact hbacc
        · intro a ha b' hb'
          rcases List.mem_append.mp hb' with hb' | hb'
          · intro hz
            exact hcross b' hb' a (List.mem_append_left acc ha) (hc.zero_symm hz)
          · exact hra.2.2 a ha b' hb'
      rw [pairwiseNE] at hsrc ⊢
      exact (List.Perm.pairwise_iff hsymm hperm).mp hsrc
    exact ih (b.foldl (fun a' k => skiplistInsert cmp k a') acc) hacc' hne'

theorem concatAll_update_perm (k : Key) :
    ∀ (n : Nat) (f g : Nat → List Key) (h : Nat), h < n →
      (∀ i, i ≠ h → g i = f i) → (g h).Perm (k :: f h) →
      (concatAll ((List.range n).map g)).Perm
        (k :: concatAll ((List.range n).map f)) := by
  intro n
  induction n with
  | zero =>
    intro f g h hh _ _
    exact absurd hh (Nat.not_lt_zero h)
  | succ n ihn =>
    intro f g h hh hfr hg
    rw [List.range_succ]
    simp only [List.map_append, List.map_cons, List.map_nil, concatAll_append]
    by_cases hcase : h = n
    · subst hcase
      have hmapeq : (List.range h).map g = (List.range h).map f := by
        apply List.map_congr_left
        intro i hi
        exact hfr i (by have := List.mem_range.mp hi; omega)
      rw [hmapeq]
      simp only [concatAll, List.append_nil]
      exact (hg.append_left (concatAll ((List.range h).map f))).trans List.perm_middle
    · have hh' : h < n := by omega
      have hgn : g n = f n := hfr n (by omega)
      rw [hgn]
      simp only [concatAll, List.append_nil]
      exact (ihn f g h hh' hfr hg).append_right (f n)

theorem concatAll_emptyRep (n : Nat) :
    concatAll ((List.range n).map emptyRep) = [] := by
  induction n with
  | zero => rfl
  | succ n ih =>
    rw [List.range_succ, List.map_append, concatAll_append, ih]
    rfl

theorem concatAll_buildFrom_perm {c : Config} (hpos : 0 < c.bucketSize) :
    ∀ (ks : List Key) (st : RepState),
      (concatAll ((List.range c.bucketSize).map (buildFrom c st ks))).Perm
        (ks ++ concatAll ((List.range c.bucketSize).map st)) := by
  intro ks
  induction ks with
  | nil => intro st; exact List.Perm.refl _
  | cons k rest ih =>
    intro st
    have hstep := concatAll_update_perm k c.bucketSize st
      (HashLinkListRep.Insert c st k) (c.getHash (c.pfxKey k))
      (Nat.mod_lt _ hpos) (fun i hi => Insert_ne hi)
      (by rw [Insert_eq]; exact bucketInsert_perm c.cmp k _)
    have ih' := ih (HashLinkListRep.Insert c st k)
    rw [show buildFrom c st (k :: rest) = buildFrom c (HashLinkListRep.Insert c st k) rest
      from rfl]
    refine ih'.trans ?_
    refine (hstep.append_left rest).trans ?_
    exact List.perm_middle

/-- C4: for every index state reached by a quiescent sequence of
non-duplicate inserts, the materialized full-order iterator of
GetIterator() visits exactly the multiset of inserted entries, in
strictly increasing comparator order across all buckets. -/
theorem C4_full_order_iterator (c : Config) (ks : List Key)
    (hpos : 0 < c.bucketSize) (hc : CmpSpec c.cmp) (hnd : pairwiseNE c.cmp ks) :
    (fullListOf c (buildRep c ks)).Perm ks ∧
    chainLt c.cmp (fullListOf c (buildRep c ks)) := by
  have hsymm : ∀ {x y : Key}, c.cmp x y ≠ 0 → c.cmp y x ≠ 0 :=
    fun h hz => h (hc.zero_symm hz)
  have hfold : fullListOf c (buildRep c ks) =
      ((List.range c.bucketSize).map (buildRep c ks)).foldl
        (fun a b => b.foldl (fun a' k => skiplistInsert c.cmp k a') a) [] := by
    rw [fullListOf, List.foldl_map]
  have hconcat : (concatAll ((List.range c.bucketSize).map (buildRep c ks))).Perm ks := by
    have h1 := concatAll_buildFrom_perm hpos ks emptyRep
    rw [concatAll_emptyRep, List.append_nil] at h1
    exact h1
  constructor
  · rw [hfold]
    have h1 := outerFold_perm c.cmp ((List.range c.bucketSize).map (buildRep c ks)) []
    rw [List.append_nil] at h1
    exact h1.trans hconcat
  · rw [hfold]
    apply outerFold_sorted hc
    · rw [chainLt]
      exact List.Pairwise.nil
    · rw [List.append_nil, pairwiseNE]
      rw [pairwiseNE] at hnd
      exact (List.Perm.pairwise_iff hsymm hconcat).mpr hnd

/-- Witness for C4: three keys of cfg0, two of them colliding in slot 1. -/
theorem C4_witness :
    (fullListOf cfg0 (buildRep cfg0 [[5], [1], [1, 3]])).Perm [[5], [1], [1, 3]] ∧
    chainLt cfg0.cmp (fullListOf cfg0 (buildRep cfg0 [[5], [1], [1, 3]])) :=
  C4_full_order_iterator cfg0 [[5], [1], [1, 3]] (by decide) lexCmp_spec (by decide)
